import Mathlib

/-
Verification of the eld-logs-spotter trip planner.

The repository ships the Next.js frontend; the Django backend that hosts the
HOS (Hours-of-Service) scheduler and the daily-log segmenter is referenced by
the README and the design document but its `hos_calculator.py` sources are not
part of the tree.  The scheduler, activity planner and segmenter below are
therefore modelled from the design document; the frontend helpers
(`formatDuration`, `formatTripDays`, the cycle-hours validation schema,
`getFullMapUrl`, and the two progress-polling stop conditions) are translated
directly from the TypeScript sources.

All durations of the HOS model are whole minutes (natural numbers); caps are
the named configuration values of the design document (11 h drive, 14 h
window, 8 h since-break, 70 h / 8-day cycle, 30 min break, 10 h rest).
-/

namespace EldLogs

/-- Duty status of a segment: OFF (off duty), SB (sleeper berth),
D (driving), ON (on duty, not driving). -/
inductive DutyStatus where
  | off
  | sb
  | driving
  | onDuty
deriving DecidableEq

/-- Modelled from the spec: the scheduler output unit - a duty-status span
with trip-relative start/stop offsets in minutes, a location label, and the
miles covered (nonzero only for driving segments). -/
structure DutySegment where
  status : DutyStatus
  start : ℕ
  stop : ℕ
  location : String
  miles : ℕ
deriving DecidableEq

/-- The two activity kinds consumed by the scheduler. -/
inductive ActivityKind where
  | drive
  | onDutyFixed
deriving DecidableEq

/-- Modelled from the spec: an atomic planned unit of work - a drive or a
fixed on-duty task (pickup, dropoff, fuel stop), with duration in minutes,
distance in miles (zero for non-driving activities) and a location label. -/
structure Activity where
  kind : ActivityKind
  duration : ℕ
  distance : ℕ
  location : String
deriving DecidableEq

/-- Cap on driving time since the last 10-hour rest: 11 hours. -/
def capDrivingSinceRest : ℕ := 660

/-- Cap on the on-duty window: 14 hours. -/
def capOnDutyWindow : ℕ := 840

/-- Cap on driving since the last 30-minute break: 8 hours. -/
def capDrivingSinceBreak : ℕ := 480

/-- Cap on on-duty hours in the trailing 8-day cycle: 70 hours. -/
def capCycle : ℕ := 4200

/-- Mandatory short break: 30 minutes. -/
def breakMinutes : ℕ := 30

/-- Mandatory rest between shifts: 10 hours. -/
def restMinutes : ℕ := 600

/-- Length of the trailing cycle window: 8 days. -/
def cycleWindowMinutes : ℕ := 11520

/-- Fixed pickup allocation: 1 hour. -/
def pickupMinutes : ℕ := 60

/-- Fixed dropoff allocation: 1 hour. -/
def dropoffMinutes : ℕ := 60

/-- Fuel-stop duration; the design document leaves the exact value open and
asks for a named configuration default, chosen here as 30 minutes. -/
def fuelStopMinutes : ℕ := 30

/-- A fuel stop is inserted every 1000 cumulative driven miles. -/
def fuelStopMiles : ℕ := 1000

/-- Modelled from the spec: the four regulatory counters, all in minutes. -/
structure ClockState where
  drivingSinceRest : ℕ
  onDutyWindow : ℕ
  drivingSinceBreak : ℕ
  cycleUsed : ℕ
deriving DecidableEq

/-- Budget in minutes a drive activity may consume right now without
breaching any of the four caps. -/
def driveSlack (c : ClockState) : ℕ :=
  min (capDrivingSinceRest - c.drivingSinceRest)
    (min (capOnDutyWindow - c.onDutyWindow)
      (min (capDrivingSinceBreak - c.drivingSinceBreak)
        (capCycle - c.cycleUsed)))

/-- Budget in minutes a fixed on-duty activity may consume right now; only
the window and the cycle apply to non-driving on-duty time. -/
def onDutySlack (c : ClockState) : ℕ :=
  min (capOnDutyWindow - c.onDutyWindow) (capCycle - c.cycleUsed)

/-- Budget applicable to an activity of the given kind. -/
def slackFor (k : ActivityKind) (c : ClockState) : ℕ :=
  match k with
  | ActivityKind.drive => driveSlack c
  | ActivityKind.onDutyFixed => onDutySlack c

/-- Advance the clock counters by consuming `d` minutes of the given
activity kind: driving consumes all four counters, fixed on-duty work only
the window and the cycle. -/
def advance (k : ActivityKind) (d : ℕ) (c : ClockState) : ClockState :=
  match k with
  | ActivityKind.drive =>
      ⟨c.drivingSinceRest + d, c.onDutyWindow + d, c.drivingSinceBreak + d,
        c.cycleUsed + d⟩
  | ActivityKind.onDutyFixed =>
      ⟨c.drivingSinceRest, c.onDutyWindow + d, c.drivingSinceBreak,
        c.cycleUsed + d⟩

/-- Which rung of the fixed precedence ladder of step 3 of the scheduler is
currently breached: 3 = break due, 2 = daily rest due, 1 = cycle exhausted,
0 = no cap breached.  The ladder is checked first-match-first. -/
def phase (c : ClockState) : ℕ :=
  if capDrivingSinceBreak ≤ c.drivingSinceBreak then 3
  else if capDrivingSinceRest ≤ c.drivingSinceRest ∨
      capOnDutyWindow ≤ c.onDutyWindow then 2
  else if capCycle ≤ c.cycleUsed then 1
  else 0

/-- Modelled from the spec: duration of the rest/break segment the scheduler
inserts when the precedence ladder fires.  A 30-minute break for the
since-break cap, a 10-hour rest for the daily caps, and - with the design
document leaving the exact cycle roll-off policy open - a full 8-day window
for the cycle cap (a conservative instance of the rolling-window recompute,
made explicit here as the document requires). -/
def restDuration (c : ClockState) : ℕ :=
  if capDrivingSinceBreak ≤ c.drivingSinceBreak then breakMinutes
  else if capDrivingSinceRest ≤ c.drivingSinceRest ∨
      capOnDutyWindow ≤ c.onDutyWindow then restMinutes
  else cycleWindowMinutes

/-- Modelled from the spec: the clock after the inserted rest/break.  The
break (taken OFF duty) resets only the since-break counter; the 10-hour rest
additionally resets the driving and window counters; the 8-day cycle wait
clears everything. -/
def restState (c : ClockState) : ClockState :=
  if capDrivingSinceBreak ≤ c.drivingSinceBreak then
    ⟨c.drivingSinceRest, c.onDutyWindow, 0, c.cycleUsed⟩
  else if capDrivingSinceRest ≤ c.drivingSinceRest ∨
      capOnDutyWindow ≤ c.onDutyWindow then
    ⟨0, 0, 0, c.cycleUsed⟩
  else ⟨0, 0, 0, 0⟩

/-- Duty status emitted for an activity kind. -/
def statusOf (k : ActivityKind) : DutyStatus :=
  match k with
  | ActivityKind.drive => DutyStatus.driving
  | ActivityKind.onDutyFixed => DutyStatus.onDuty

/-- Segment emitted for `d` minutes of activity `a` starting at offset `t`;
driving chunks carry the proportional share of the activity's miles. -/
def activitySeg (a : Activity) (t d : ℕ) : DutySegment :=
  ⟨statusOf a.kind, t, t + d, a.location,
    match a.kind with
    | ActivityKind.drive => a.distance * d / a.duration
    | ActivityKind.onDutyFixed => 0⟩

/-- Inserted OFF-duty rest/break segment. -/
def restSegment (loc : String) (t d : ℕ) : DutySegment :=
  ⟨DutyStatus.off, t, t + d, loc, 0⟩

/-- Chunk emitted before an inserted rest: nothing when the consumable
sub-duration is zero. -/
def emitChunk (a : Activity) (t d : ℕ) : List DutySegment :=
  if d = 0 then [] else [activitySeg a t d]

/-- Modelled from the spec: one activity of the forward simulation.  If the
remaining duration fits within every applicable budget it is emitted whole;
otherwise the capped sub-duration is emitted, the first breached cap of the
precedence ladder picks the rest/break to insert, and the same activity
resumes with its unconsumed remainder.  The fuel argument only bounds the
recursion; `runActivity_isSome` shows the bound used by `runAll` always
suffices. -/
def runActivity : ℕ → Activity → ℕ → ClockState → ℕ →
    Option (List DutySegment × ClockState × ℕ)
  | 0, _, _, _, _ => none
  | fuel + 1, a, rem, c, t =>
    if rem = 0 then some ([], c, t)
    else if rem ≤ slackFor a.kind c then
      some ([activitySeg a t rem], advance a.kind rem c, t + rem)
    else
      Option.map
        (fun r =>
          (emitChunk a t (slackFor a.kind c) ++
            restSegment a.location (t + slackFor a.kind c)
              (restDuration (advance a.kind (slackFor a.kind c) c)) :: r.1,
            r.2.1, r.2.2))
        (runActivity fuel a (rem - slackFor a.kind c)
          (restState (advance a.kind (slackFor a.kind c) c))
          (t + slackFor a.kind c +
            restDuration (advance a.kind (slackFor a.kind c) c)))

/-- Modelled from the spec: the single forward pass of the HOS scheduler
over the activity list. -/
def runAll : List Activity → ClockState → ℕ →
    Option (List DutySegment × ClockState × ℕ)
  | [], c, t => some ([], c, t)
  | a :: rest, c, t =>
    match runActivity (4 * a.duration + 4) a a.duration c t with
    | none => none
    | some (out, c2, t2) =>
      Option.map (fun r => (out ++ r.1, r.2.1, r.2.2)) (runAll rest c2 t2)

/-- Initial clock: all counters zero except the caller-supplied cycle
minutes already used. -/
def initialClock (c0 : ℕ) : ClockState := ⟨0, 0, 0, c0⟩

/-- Modelled from the spec: the HOS scheduler.  Consumes the activity list
starting from the initial clock and emits the contiguous duty-segment
timeline. -/
def schedule (acts : List Activity) (c0 : ℕ) : List DutySegment :=
  match runAll acts (initialClock c0) 0 with
  | some (segs, _, _) => segs
  | none => []

/-- Modelled from the spec: one physical leg, produced externally, with
distance in miles and drive duration in minutes. -/
structure Leg where
  origin : String
  dest : String
  distance : ℕ
  duration : ℕ
deriving DecidableEq

/-- The two error kinds of the core. -/
inductive TripError where
  | invalidLeg
  | unschedulable
deriving DecidableEq

/-- Modelled from the spec: expand one leg into drive activities with a fuel
stop after every 1000 cumulative driven miles, threading the miles driven
since the last stop.  The fuel argument bounds the recursion. -/
def planLeg : ℕ → ℕ → ℕ → ℕ → String → List Activity × ℕ
  | 0, _, _, sinceFuel, _ => ([], sinceFuel)
  | fuel + 1, dist, dur, sinceFuel, loc =>
    if fuelStopMiles ≤ sinceFuel then
      let r := planLeg fuel dist dur 0 loc
      (Activity.mk ActivityKind.onDutyFixed fuelStopMinutes 0 loc :: r.1, r.2)
    else if fuelStopMiles < sinceFuel + dist then
      let take := fuelStopMiles - sinceFuel
      let tdur := dur * take / dist
      let r := planLeg fuel (dist - take) (dur - tdur) (sinceFuel + take) loc
      (Activity.mk ActivityKind.drive tdur take loc :: r.1, r.2)
    else
      ([Activity.mk ActivityKind.drive dur dist loc], sinceFuel + dist)

/-- Recursion bound for `planLeg`. -/
def planLegFuel (dist : ℕ) : ℕ := 2 * dist + 2

/-- Modelled from the spec: the activity planner.  Validates both legs
(non-positive distance or duration is an `invalidLeg` caller defect) and
emits drive-to-pickup, a 1-hour pickup, drive-to-dropoff and a 1-hour
dropoff, with fuel stops every 1000 cumulative miles. -/
def plan (leg1 leg2 : Leg) : Except TripError (List Activity) :=
  if leg1.distance = 0 ∨ leg1.duration = 0 ∨ leg2.distance = 0 ∨
      leg2.duration = 0 then
    Except.error TripError.invalidLeg
  else
    let r1 := planLeg (planLegFuel leg1.distance) leg1.distance leg1.duration
      0 leg1.dest
    let r2 := planLeg (planLegFuel leg2.distance) leg2.distance leg2.duration
      r1.2 leg2.dest
    Except.ok (r1.1 ++
      Activity.mk ActivityKind.onDutyFixed pickupMinutes 0 leg1.dest ::
        r2.1 ++
          [Activity.mk ActivityKind.onDutyFixed dropoffMinutes 0 leg2.dest])

/-- Modelled from the spec: the whole core computation - plan the activities,
then schedule them.  Both error kinds abort the trip with no partial
timeline. -/
def calcTrip (leg1 leg2 : Leg) (c0 : ℕ) :
    Except TripError (List DutySegment) :=
  Except.map (fun acts => schedule acts c0) (plan leg1 leg2)

/-- Replay of the clock counters from the emitted timeline alone: duty
segments consume the counters exactly as their activity kind does, and any
OFF/SB span resets what its length earns - 8 days clear the cycle, 10 hours
clear the daily counters, 30 minutes clear the since-break counter. -/
def replayStep (c : ClockState) (s : DutySegment) : ClockState :=
  match s.status with
  | DutyStatus.driving => advance ActivityKind.drive (s.stop - s.start) c
  | DutyStatus.onDuty => advance ActivityKind.onDutyFixed (s.stop - s.start) c
  | _ =>
    if cycleWindowMinutes ≤ s.stop - s.start then ⟨0, 0, 0, 0⟩
    else if restMinutes ≤ s.stop - s.start then ⟨0, 0, 0, c.cycleUsed⟩
    else if breakMinutes ≤ s.stop - s.start then
      ⟨c.drivingSinceRest, c.onDutyWindow, 0, c.cycleUsed⟩
    else c

/-- Replay an entire segment list. -/
def replayList (c : ClockState) : List DutySegment → ClockState
  | [] => c
  | s :: rest => replayList (replayStep c s) rest

/-- Cap check for one segment against the counters right after it: a
driving segment must respect all four caps, an on-duty segment the window
and cycle caps it extends; rest segments extend nothing. -/
def checkSeg (s : DutySegment) (c : ClockState) : Bool :=
  match s.status with
  | DutyStatus.driving =>
    decide (c.drivingSinceRest ≤ capDrivingSinceRest) &&
      decide (c.onDutyWindow ≤ capOnDutyWindow) &&
        decide (c.drivingSinceBreak ≤ capDrivingSinceBreak) &&
          decide (c.cycleUsed ≤ capCycle)
  | DutyStatus.onDuty =>
    decide (c.onDutyWindow ≤ capOnDutyWindow) &&
      decide (c.cycleUsed ≤ capCycle)
  | _ => true

/-- Check every Drive/OnDuty segment of a timeline against the caps, with
the counters replayed from the timeline itself. -/
def capsOk (c : ClockState) : List DutySegment → Bool
  | [] => true
  | s :: rest => checkSeg s (replayStep c s) && capsOk (replayStep c s) rest

/-- Minutes of on-duty (D or ON) time segment `s` contributes to the
half-open window `(lo, hi]` written with truncated bounds. -/
def onLen (lo hi : ℕ) (s : DutySegment) : ℕ :=
  if s.status = DutyStatus.driving ∨ s.status = DutyStatus.onDuty then
    min hi s.stop - max lo s.start
  else 0

/-- Total ON+D minutes a timeline places in the trailing 8-day window ending
at minute `b`. -/
def windowOnDuty (segs : List DutySegment) (b : ℕ) : ℕ :=
  (segs.map (onLen (b - cycleWindowMinutes) b)).sum

/-- Adjacent duty segments must satisfy stop = next start, and each segment
must not run backwards. -/
def chainOk : List DutySegment → Bool
  | [] => true
  | [s] => decide (s.start ≤ s.stop)
  | s :: s2 :: rest =>
    decide (s.start ≤ s.stop) && decide (s.stop = s2.start) &&
      chainOk (s2 :: rest)

/-- The contiguity check of the design document: the first segment starts at
offset 0 and every adjacent pair satisfies stop = next start. -/
def contiguousFromZero (segs : List DutySegment) : Bool :=
  match segs with
  | [] => true
  | s :: _ => decide (s.start = 0) && chainOk segs

/-- A list of segments forms a gap-free chain from time `t` to time `u`. -/
inductive Chained : ℕ → List DutySegment → ℕ → Prop where
  | nil (t : ℕ) : Chained t [] t
  | cons {t u : ℕ} {s : DutySegment} {rest : List DutySegment}
      (hstart : s.start = t) (hle : t ≤ s.stop)
      (htail : Chained s.stop rest u) : Chained t (s :: rest) u

/-- Minutes in a local calendar day. -/
def dayMinutes : ℕ := 1440

/-- Calendar day (counted from the day containing trip minute 0) in which an
absolute offset falls, for a trip starting `s0` minutes after local
midnight. -/
def dayIndex (s0 x : ℕ) : ℕ := (s0 + x) / dayMinutes

/-- Offset of the first midnight boundary strictly after the start of a
segment, for a trip starting `s0` minutes after local midnight. -/
def splitCut (s0 : ℕ) (s : DutySegment) : ℕ :=
  (dayIndex s0 s.start + 1) * dayMinutes - s0

/-- Floor-proportional share of the miles for the part of a segment before
its first midnight boundary. -/
def splitMiles (s0 : ℕ) (s : DutySegment) : ℕ :=
  s.miles * (splitCut s0 s - s.start) / (s.stop - s.start)

/-- Modelled from the spec: split one segment at every local-midnight
boundary it spans, keeping status and location and giving the first piece
the floor-proportional share of the miles and the remainder to the rest.
The fuel argument bounds the recursion by the segment length. -/
def splitSeg (s0 : ℕ) : ℕ → DutySegment → List DutySegment
  | 0, s => [s]
  | fuel + 1, s =>
    if (dayIndex s0 s.start + 1) * dayMinutes < s0 + s.stop then
      DutySegment.mk s.status s.start (splitCut s0 s) s.location
          (splitMiles s0 s) ::
        splitSeg s0 fuel
          (DutySegment.mk s.status (splitCut s0 s) s.stop s.location
            (s.miles - splitMiles s0 s))
    else [s]

/-- Split a segment at every midnight it spans. -/
def splitSegTop (s0 : ℕ) (s : DutySegment) : List DutySegment :=
  splitSeg s0 (s.stop - s.start) s

/-- End of the timeline: the largest stop offset. -/
def totalEnd (segs : List DutySegment) : ℕ :=
  segs.foldr (fun s m => max s.stop m) 0

/-- Number of calendar days touched by the trip; at least one even for an
empty timeline. -/
def numDays (s0 : ℕ) (segs : List DutySegment) : ℕ :=
  dayIndex s0 (totalEnd segs) + 1

/-- Chunk the already-split pieces into consecutive days `d, d+1, ...`,
producing one (possibly empty) chunk per day. -/
def chunkDays (s0 : ℕ) : ℕ → ℕ → List DutySegment → List (List DutySegment)
  | 0, _, _ => []
  | n + 1, d, ps =>
    ps.takeWhile (fun p => dayIndex s0 p.start = d) ::
      chunkDays s0 n (d + 1) (ps.dropWhile (fun p => dayIndex s0 p.start = d))

/-- Remark entries after a first location has been seen: one entry per
location change, stamped with the segment start. -/
def remarksAux (loc : String) : List DutySegment → List (ℕ × String)
  | [] => []
  | s :: rest =>
    if s.location = loc then remarksAux loc rest
    else (s.start, s.location) :: remarksAux s.location rest

/-- Remarks of a day: the first location and every subsequent change. -/
def remarksOf : List DutySegment → List (ℕ × String)
  | [] => []
  | s :: rest => (s.start, s.location) :: remarksAux s.location rest

/-- Modelled from the spec: one calendar day's log - day index, the duty
segments clipped to that day, the miles driven that day and the location
remarks. -/
structure DailyLog where
  day : ℕ
  events : List DutySegment
  totalMiles : ℕ
  remarks : List (ℕ × String)
deriving DecidableEq

/-- Build one `DailyLog` per day chunk, numbering the days from `d`. -/
def mkLogs : ℕ → List (List DutySegment) → List DailyLog
  | _, [] => []
  | d, evs :: rest =>
    DailyLog.mk d evs ((evs.map (fun p => p.miles)).sum) (remarksOf evs) ::
      mkLogs (d + 1) rest

/-- Modelled from the spec: the daily log segmenter.  Splits every segment
at local-midnight boundaries and accumulates the pieces into one log per
calendar day touched by the trip. -/
def segmentDays (s0 : ℕ) (segs : List DutySegment) : List DailyLog :=
  mkLogs 0
    (chunkDays s0 (numDays s0 segs) 0 (segs.flatMap (splitSegTop s0)))

/-- Start offset of the first segment of a list, with a default for the
empty list. -/
def headStart (d : ℕ) : List DutySegment → ℕ
  | [] => d
  | s :: _ => s.start

/-- One original segment and a non-empty run of pieces that merely refine
it: same status and location, contiguous from its start to its stop, miles
adding up exactly. -/
def PiecesOf (s : DutySegment) (ps : List DutySegment) : Prop :=
  ps ≠ [] ∧ Chained s.start ps s.stop ∧
    (∀ p ∈ ps, p.status = s.status ∧ p.location = s.location) ∧
    (ps.map (fun p => p.miles)).sum = s.miles

/-- A piece list is a split of a segment list when it is the in-order
concatenation of a refinement of each original segment: boundaries may be
added but no time, status, location or mileage is lost or altered. -/
inductive IsSplitOf : List DutySegment → List DutySegment → Prop where
  | nil : IsSplitOf [] []
  | cons {s : DutySegment} {ps rest : List DutySegment}
      {tail : List DutySegment} (hp : PiecesOf s ps)
      (ht : IsSplitOf tail rest) : IsSplitOf (ps ++ tail) (s :: rest)

/-
Frontend helpers, translated from the TypeScript sources.  Numbers are
modelled as rationals; JavaScript `Math.round` rounds half toward positive
infinity.
-/

/-- JavaScript `Math.round`: floor of x + 1/2. -/
def jsRound (x : ℚ) : ℤ := ⌊x + 1 / 2⌋

/-- Whole-hours part `const h = Math.floor(hours)` of `formatDuration`. -/
def hoursPart (hrs : ℚ) : ℤ := ⌊hrs⌋

/-- Minutes part `const m = Math.round((hours - h) * 60)` of
`formatDuration`. -/
def minutesPart (hrs : ℚ) : ℤ :=
  jsRound ((hrs - (⌊hrs⌋ : ℚ)) * 60)

/-- The frontend `formatDuration` of `lib/api/client.ts`: `--` for a missing
value, else `Xm`, `Xh` or `Xh Ym` from the floor hours and rounded
minutes. -/
def formatDuration : Option ℚ → String
  | none => "--"
  | some hrs =>
    if hoursPart hrs = 0 then toString (minutesPart hrs) ++ "m"
    else if minutesPart hrs = 0 then toString (hoursPart hrs) ++ "h"
    else
      toString (hoursPart hrs) ++ "h " ++ toString (minutesPart hrs) ++ "m"

/-- The day count `Math.ceil(hours / 24)` of the frontend
`formatTripDays`. -/
def tripDaysCount (hours : ℚ) : ℤ := ⌈hours / 24⌉

/-- The frontend `formatTripDays` of `lib/api/client.ts` on an hours value:
`--` for a missing value, else the ceiling day count pluralised exactly when
it differs from 1. -/
def formatTripDays : Option ℚ → String
  | none => "--"
  | some h =>
    toString (tripDaysCount h) ++
      (if tripDaysCount h = 1 then " day" else " days")

/-- The `cycleSchema` zod validator of `components/trip-form.tsx`:
`z.number().min(0, ...).max(70, ...)`, with its error messages. -/
def cycleFieldError (v : ℚ) : Option String :=
  if v < 0 then some "Cycle hours cannot be negative"
  else if 70 < v then some "Cycle hours cannot exceed 70"
  else none

/-- Replace the first occurrence of `pat` in a character list by `repl`,
as JavaScript `String.prototype.replace` does with a string pattern. -/
def replaceFirstChars (pat repl : List Char) : List Char → List Char
  | [] => []
  | ch :: rest =>
    if pat.isPrefixOf (ch :: rest) then repl ++ (ch :: rest).drop pat.length
    else ch :: replaceFirstChars pat repl rest

/-- Characters of the scheme test string for plain HTTP. -/
def httpChars : List Char := "http://".data

/-- Characters of the scheme test string for HTTPS. -/
def httpsChars : List Char := "https://".data

/-- The `mapUrl.startsWith("http://") || mapUrl.startsWith("https://")`
test of the trip-map component. -/
def hasHttpScheme (s : List Char) : Bool :=
  httpChars.isPrefixOf s || httpsChars.isPrefixOf s

/-- Characters of the `"/api"` pattern removed from the API base URL. -/
def apiPatChars : List Char := "/api".data

/-- The component's `getMediaBaseUrl`: the API base URL with the first
occurrence of `/api` removed. -/
def getMediaBaseUrl (apiUrl : List Char) : List Char :=
  replaceFirstChars apiPatChars [] apiUrl

/-- The trip-map component's `getFullMapUrl`: null (and the falsy empty
string) map to null, absolute http(s) URLs pass through unchanged, anything
else gets the media base URL prepended. -/
def getFullMapUrl (apiUrl : List Char) :
    Option (List Char) → Option (List Char)
  | none => none
  | some s =>
    if s.isEmpty then none
    else if hasHttpScheme s then some s
    else some (getMediaBaseUrl apiUrl ++ s)

/-- Trip status of `lib/api/types.ts`. -/
inductive TripStatus where
  | pending
  | processing
  | completed
  | failed
deriving DecidableEq

/-- Map-generation status of `lib/api/types.ts`. -/
inductive MapStatus where
  | notStarted
  | generating
  | completed
  | failed
deriving DecidableEq

/-- The fields of a trip status response read by the two polling stop
conditions. -/
structure TripStatusFields where
  status : TripStatus
  mapStatus : MapStatus
  isMapReady : Bool
deriving DecidableEq

/-- Stop predicate of `TripProgressPoller.poll` in
`services/tripProgressService.ts`: stop when the trip completed and the map
status is completed, or the trip failed. -/
def pollerShouldStop (r : TripStatusFields) : Bool :=
  (decide (r.status = TripStatus.completed) &&
      decide (r.mapStatus = MapStatus.completed)) ||
    decide (r.status = TripStatus.failed)

/-- Stop predicate of the `useTripStatus` refetch interval in
`hooks/use-trip.ts`: stop when the trip completed and `is_map_ready` holds,
or the trip failed. -/
def hookShouldStop (r : TripStatusFields) : Bool :=
  (decide (r.status = TripStatus.completed) && r.isMapReady) ||
    decide (r.status = TripStatus.failed)

/-- All four counters within their caps. -/
def Inv (c : ClockState) : Prop :=
  c.drivingSinceRest ≤ capDrivingSinceRest ∧
    c.onDutyWindow ≤ capOnDutyWindow ∧
    c.drivingSinceBreak ≤ capDrivingSinceBreak ∧ c.cycleUsed ≤ capCycle

/-- The simulation invariant tying an emitted prefix of the timeline at
current offset `t` to the scheduler clock `c`: the prefix chains gap-free
from 0 to `t`, the clock respects every cap and is exactly the replay of the
prefix, every cap check on the prefix passes, every trailing 8-day window
ending at or before `t` holds at most 70 on-duty hours, and the window
ending at `t` is bounded by the cycle counter. -/
def Good (c0 : ℕ) (prev : List DutySegment) (t : ℕ) (c : ClockState) :
    Prop :=
  Chained 0 prev t ∧ Inv c ∧ replayList (initialClock c0) prev = c ∧
    capsOk (initialClock c0) prev = true ∧
    (∀ b, b ≤ t → windowOnDuty prev b ≤ capCycle) ∧
    windowOnDuty prev t ≤ c.cycleUsed

/-
Basic facts about chains of segments.
-/

theorem Chained.le {t u : ℕ} {l : List DutySegment} (h : Chained t l u) :
    t ≤ u := by
  induction h with
  | nil => exact Nat.le_refl _
  | cons hstart hle htail ih => omega

theorem Chained.bounds {t u : ℕ} {l : List DutySegment} (h : Chained t l u) :
    ∀ s ∈ l, t ≤ s.start ∧ s.start ≤ s.stop ∧ s.stop ≤ u := by
  induction h with
  | nil => intro s hs; cases hs
  | cons hstart hle htail ih =>
    intro s hs
    rcases List.mem_cons.mp hs with rfl | hs
    · have := htail.le
      omega
    · have := ih s hs
      omega

theorem Chained.append {t u v : ℕ} {l1 l2 : List DutySegment}
    (h1 : Chained t l1 u) (h2 : Chained u l2 v) :
    Chained t (l1 ++ l2) v := by
  induction h1 with
  | nil => simpa using h2
  | cons hstart hle htail ih =>
    exact Chained.cons hstart hle (ih h2)

theorem Chained.chainOk {t u : ℕ} {l : List DutySegment}
    (h : Chained t l u) : chainOk l = true := by
  induction h with
  | nil => rfl
  | cons hstart hle htail ih =>
    rename_i t' u' s rest
    cases htail with
    | nil =>
      simp [EldLogs.chainOk]
      omega
    | cons hstart2 hle2 htail2 =>
      rename_i s2 rest2
      simp only [EldLogs.chainOk, Bool.and_eq_true, decide_eq_true_eq]
      refine ⟨⟨by omega, by omega⟩, ?_⟩
      exact ih

theorem Chained.contiguousFromZero {u : ℕ} {l : List DutySegment}
    (h : Chained 0 l u) : contiguousFromZero l = true := by
  cases h with
  | nil => rfl
  | cons hstart hle htail =>
    rename_i s rest
    simp only [EldLogs.contiguousFromZero, Bool.and_eq_true, decide_eq_true_eq]
    exact ⟨hstart, Chained.chainOk (Chained.cons hstart hle htail)⟩

/-
The precedence ladder and termination of the simulation.
-/

theorem phase_le_three (c : ClockState) : phase c ≤ 3 := by
  unfold phase
  split <;> try omega
  split <;> try omega
  split <;> omega

theorem advance_zero (k : ActivityKind) (c : ClockState) :
    advance k 0 c = c := by
  cases k <;> cases c <;> simp [advance]

theorem advance_cycle (k : ActivityKind) (d : ℕ) (c : ClockState) :
    (advance k d c).cycleUsed = c.cycleUsed + d := by
  cases k <;> rfl

theorem phase_pos_of_slack_zero {k : ActivityKind} {c : ClockState}
    (h : slackFor k c = 0) : 1 ≤ phase c := by
  cases k <;>
    simp only [slackFor, driveSlack, onDutySlack, Nat.min_eq_zero_iff] at h <;>
    unfold phase <;> split <;> try omega
  all_goals split <;> try omega
  all_goals split <;> omega

theorem phase_dsb_zero (dsr odw cu : ℕ) :
    phase ⟨dsr, odw, 0, cu⟩ ≤ 2 := by
  unfold phase
  have h : ¬ capDrivingSinceBreak ≤
      (⟨dsr, odw, 0, cu⟩ : ClockState).drivingSinceBreak := by
    simp [capDrivingSinceBreak]
  rw [if_neg h]
  split
  · omega
  · split <;> omega

theorem phase_daily_zero (cu : ℕ) : phase ⟨0, 0, 0, cu⟩ ≤ 1 := by
  unfold phase
  norm_num [capDrivingSinceBreak, capDrivingSinceRest, capOnDutyWindow]
  split <;> omega

theorem phase_restState_lt {c : ClockState} (h : 1 ≤ phase c) :
    phase (restState c) < phase c := by
  by_cases h3 : capDrivingSinceBreak ≤ c.drivingSinceBreak
  · have h1 : phase c = 3 := by unfold phase; rw [if_pos h3]
    have h2 : restState c =
        ⟨c.drivingSinceRest, c.onDutyWindow, 0, c.cycleUsed⟩ := by
      unfold restState; rw [if_pos h3]
    rw [h1, h2]
    have := phase_dsb_zero c.drivingSinceRest c.onDutyWindow c.cycleUsed
    omega
  · by_cases h2 : capDrivingSinceRest ≤ c.drivingSinceRest ∨
        capOnDutyWindow ≤ c.onDutyWindow
    · have h1 : phase c = 2 := by unfold phase; rw [if_neg h3, if_pos h2]
      have hr : restState c = ⟨0, 0, 0, c.cycleUsed⟩ := by
        unfold restState; rw [if_neg h3, if_pos h2]
      rw [h1, hr]
      have := phase_daily_zero c.cycleUsed
      omega
    · by_cases h1 : capCycle ≤ c.cycleUsed
      · have hp : phase c = 1 := by
          unfold phase; rw [if_neg h3, if_neg h2, if_pos h1]
        have hr : restState c = ⟨0, 0, 0, 0⟩ := by
          unfold restState; rw [if_neg h3, if_neg h2]
        rw [hp, hr]
        have hz : phase (⟨0, 0, 0, 0⟩ : ClockState) = 0 := by decide
        omega
      · have hp : phase c = 0 := by
          unfold phase; rw [if_neg h3, if_neg h2, if_neg h1]
        omega

theorem runActivity_isSome (a : Activity) :
    ∀ (fuel rem : ℕ) (c : ClockState) (t : ℕ),
      4 * rem + phase c < fuel → (runActivity fuel a rem c t).isSome := by
  intro fuel
  induction fuel with
  | zero => intro rem c t h; omega
  | succ n ih =>
    intro rem c t h
    rw [runActivity]
    split
    · rfl
    · split
      · rfl
      · rename_i hrem hfit
        have hI : (runActivity n a (rem - slackFor a.kind c)
            (restState (advance a.kind (slackFor a.kind c) c))
            (t + slackFor a.kind c +
              restDuration (advance a.kind (slackFor a.kind c) c))).isSome
            := by
          by_cases hz : slackFor a.kind c = 0
          · have h1 : 1 ≤ phase c := phase_pos_of_slack_zero hz
            have h2 : phase (restState (advance a.kind (slackFor a.kind c) c))
                < phase c := by
              rw [hz, advance_zero]
              exact phase_restState_lt h1
            exact ih (rem - slackFor a.kind c) _ _ (by omega)
          · have h3 := phase_le_three
              (restState (advance a.kind (slackFor a.kind c) c))
            have h4 : slackFor a.kind c < rem := by omega
            exact ih (rem - slackFor a.kind c) _ _ (by omega)
        rcases Option.isSome_iff_exists.mp hI with ⟨r, hr⟩
        rw [hr]
        rfl

theorem runAll_isSome (acts : List Activity) :
    ∀ (c : ClockState) (t : ℕ), (runAll acts c t).isSome := by
  induction acts with
  | nil => intro c t; rfl
  | cons a rest ih =>
    intro c t
    rw [runAll]
    have h1 : (runActivity (4 * a.duration + 4) a a.duration c t).isSome :=
      runActivity_isSome a _ a.duration c t
        (by have := phase_le_three c; omega)
    rcases Option.isSome_iff_exists.mp h1 with ⟨r, hr⟩
    rw [hr]
    rcases r with ⟨out, c2, t2⟩
    simpa using ih c2 t2

/-
Contiguity of every emitted timeline (claim C2 machinery).
-/

theorem runActivity_chained (a : Activity) :
    ∀ (fuel rem : ℕ) (c : ClockState) (t : ℕ) (out : List DutySegment)
      (cFin : ClockState) (tFin : ℕ),
      runActivity fuel a rem c t = some (out, cFin, tFin) →
      Chained t out tFin := by
  intro fuel
  induction fuel with
  | zero => intro rem c t out cFin tFin h; simp [runActivity] at h
  | succ n ih =>
    intro rem c t out cFin tFin h
    rw [runActivity] at h
    split at h
    · injection h with h1
      injection h1 with h1 h2
      injection h2 with h2 h3
      subst h1; subst h3
      exact Chained.nil t
    · split at h
      · injection h with h1
        injection h1 with h1 h2
        injection h2 with h2 h3
        subst h1; subst h3
        exact Chained.cons rfl (by simp [activitySeg]) (Chained.nil _)
      · rcases Option.map_eq_some'.mp h with ⟨⟨out2, cF, tF⟩, hrun, heq⟩
        injection heq with h1 h2
        injection h2 with h2 h3
        subst h1; subst h3; subst h2
        have htail := ih _ _ _ _ _ _ hrun
        by_cases hz : slackFor a.kind c = 0
        · rw [hz]
          simp only [emitChunk, if_pos rfl, List.nil_append]
          exact Chained.cons (by simp [restSegment])
            (by simp [restSegment]) (by simpa [restSegment, hz] using htail)
        · simp only [emitChunk, if_neg hz]
          refine Chained.cons (by simp [activitySeg]) (by simp [activitySeg])
            ?_
          exact Chained.cons (by simp [restSegment, activitySeg])
            (by simp [restSegment, activitySeg])
            (by simpa [restSegment, activitySeg] using htail)

theorem runAll_chained :
    ∀ (acts : List Activity) (c : ClockState) (t : ℕ)
      (out : List DutySegment) (cFin : ClockState) (tFin : ℕ),
      runAll acts c t = some (out, cFin, tFin) → Chained t out tFin := by
  intro acts
  induction acts with
  | nil =>
    intro c t out cFin tFin h
    injection h with h1
    injection h1 with h1 h2
    injection h2 with h2 h3
    subst h1; subst h3
    exact Chained.nil t
  | cons a rest ih =>
    intro c t out cFin tFin h
    rw [runAll] at h
    split at h
    · cases h
    · rename_i r c2 t2 hr
      rcases Option.map_eq_some'.mp h with ⟨⟨out2, cF, tF⟩, hrun, heq⟩
      injection heq with h1 h2
      injection h2 with h2 h3
      subst h1; subst h3; subst h2
      exact Chained.append (runActivity_chained a _ _ _ _ _ _ _ hr)
        (ih _ _ _ _ _ hrun)

theorem schedule_chained (acts : List Activity) (c0 : ℕ) :
    ∃ tFin, Chained 0 (schedule acts c0) tFin := by
  have h := runAll_isSome acts (initialClock c0) 0
  rcases Option.isSome_iff_exists.mp h with ⟨⟨out, cF, tF⟩, hr⟩
  refine ⟨tF, ?_⟩
  unfold schedule
  rw [hr]
  exact runAll_chained acts _ _ _ _ _ hr

/-
Replay, cap checks and window sums.
-/

theorem replayList_append (c : ClockState) (l1 l2 : List DutySegment) :
    replayList c (l1 ++ l2) = replayList (replayList c l1) l2 := by
  induction l1 generalizing c with
  | nil => rfl
  | cons s rest ih => simp [replayList, ih]

theorem capsOk_append (c : ClockState) (l1 l2 : List DutySegment) :
    capsOk c (l1 ++ l2) = (capsOk c l1 && capsOk (replayList c l1) l2) := by
  induction l1 generalizing c with
  | nil => simp [capsOk, replayList]
  | cons s rest ih => simp [capsOk, replayList, ih, Bool.and_assoc]

theorem windowOnDuty_append (l : List DutySegment) (s : DutySegment)
    (b : ℕ) : windowOnDuty (l ++ [s]) b =
      windowOnDuty l b + onLen (b - cycleWindowMinutes) b s := by
  simp [windowOnDuty]

theorem onLen_off (lo hi : ℕ) (loc : String) (t d : ℕ) :
    onLen lo hi (restSegment loc t d) = 0 := by
  simp [onLen, restSegment]

theorem onLen_eq_zero {s : DutySegment} {lo hi : ℕ}
    (h : min hi s.stop ≤ max lo s.start) : onLen lo hi s = 0 := by
  unfold onLen
  split
  · exact Nat.sub_eq_zero_of_le h
  · rfl

theorem onLen_le_interval (s : DutySegment) (lo hi : ℕ) :
    onLen lo hi s ≤ min hi s.stop - max lo s.start := by
  unfold onLen
  split
  · exact Nat.le_refl _
  · exact Nat.zero_le _

theorem windowOnDuty_mono {l : List DutySegment} {t b : ℕ}
    (hstops : ∀ s ∈ l, s.stop ≤ t) (htb : t ≤ b) :
    windowOnDuty l b ≤ windowOnDuty l t := by
  unfold windowOnDuty
  apply List.sum_le_sum
  intro s hs
  have hst := hstops s hs
  unfold onLen
  split
  · rw [min_eq_right (Nat.le_trans hst htb), min_eq_right hst]
    exact Nat.sub_le_sub_left
      (max_le_max (Nat.sub_le_sub_right htb cycleWindowMinutes)
        (Nat.le_refl s.start)) s.stop
  · exact Nat.le_refl 0

theorem advance_Inv {k : ActivityKind} {c : ClockState} {d : ℕ}
    (hinv : Inv c) (hd : d ≤ slackFor k c) : Inv (advance k d c) := by
  obtain ⟨h1, h2, h3, h4⟩ := hinv
  cases k <;>
    simp only [slackFor, driveSlack, onDutySlack, le_min_iff] at hd <;>
    refine ⟨?_, ?_, ?_, ?_⟩ <;> simp only [advance, Inv] <;> omega

theorem restState_Inv {c : ClockState} (hinv : Inv c) :
    Inv (restState c) := by
  obtain ⟨h1, h2, h3, h4⟩ := hinv
  unfold restState
  split
  · exact ⟨h1, h2, Nat.zero_le _, h4⟩
  · split
    · exact ⟨Nat.zero_le _, Nat.zero_le _, Nat.zero_le _, h4⟩
    · exact ⟨Nat.zero_le _, Nat.zero_le _, Nat.zero_le _, Nat.zero_le _⟩

theorem replayStep_activitySeg (c : ClockState) (a : Activity) (t d : ℕ) :
    replayStep c (activitySeg a t d) = advance a.kind d c := by
  cases hk : a.kind <;>
    simp [replayStep, activitySeg, statusOf, hk, Nat.add_sub_cancel_left]

theorem checkSeg_activitySeg {a : Activity} {t d : ℕ} {c : ClockState}
    (hinv : Inv (advance a.kind d c)) :
    checkSeg (activitySeg a t d) (advance a.kind d c) = true := by
  obtain ⟨h1, h2, h3, h4⟩ := hinv
  cases hk : a.kind <;>
    simp_all [checkSeg, activitySeg, statusOf, hk]

theorem replayStep_restSeg (c : ClockState) (loc : String) (t : ℕ) :
    replayStep c (restSegment loc t (restDuration c)) = restState c := by
  unfold restDuration restState
  by_cases h3 : capDrivingSinceBreak ≤ c.drivingSinceBreak
  · rw [if_pos h3, if_pos h3]
    norm_num [replayStep, restSegment, Nat.add_sub_cancel_left,
      breakMinutes, restMinutes, cycleWindowMinutes]
  · by_cases h2 : capDrivingSinceRest ≤ c.drivingSinceRest ∨
        capOnDutyWindow ≤ c.onDutyWindow
    · rw [if_neg h3, if_pos h2, if_neg h3, if_pos h2]
      norm_num [replayStep, restSegment, Nat.add_sub_cancel_left,
        restMinutes, cycleWindowMinutes]
    · rw [if_neg h3, if_neg h2, if_neg h3, if_neg h2]
      norm_num [replayStep, restSegment, Nat.add_sub_cancel_left,
        cycleWindowMinutes]

/-
The two simulation steps preserve the invariant.
-/

theorem good_emit {c0 : ℕ} {prev : List DutySegment} {t : ℕ}
    {c : ClockState} {a : Activity} {d : ℕ}
    (hslack : d ≤ slackFor a.kind c) (hg : Good c0 prev t c) :
    Good c0 (prev ++ [activitySeg a t d]) (t + d) (advance a.kind d c) := by
  obtain ⟨hch, hinv, hrep, hcaps, hwins, hwt⟩ := hg
  have hstops : ∀ s ∈ prev, s.stop ≤ t := fun s hs => (hch.bounds s hs).2.2
  have hinv2 : Inv (advance a.kind d c) := advance_Inv hinv hslack
  have hcu : c.cycleUsed + d ≤ capCycle := by
    have h4 := hinv.2.2.2
    cases hk : a.kind <;> rw [hk] at hslack <;>
      simp only [slackFor, driveSlack, onDutySlack, le_min_iff] at hslack <;>
      omega
  refine ⟨?_, hinv2, ?_, ?_, ?_, ?_⟩
  · exact hch.append (Chained.cons (by simp [activitySeg])
      (by simp [activitySeg]) (Chained.nil _))
  · rw [replayList_append, hrep]
    show replayList c [activitySeg a t d] = advance a.kind d c
    simp [replayList, replayStep_activitySeg]
  · rw [capsOk_append, hcaps, hrep]
    simp [capsOk, replayStep_activitySeg, checkSeg_activitySeg hinv2]
  · intro b hb
    rw [windowOnDuty_append]
    by_cases hbt : b ≤ t
    · have h0 : onLen (b - cycleWindowMinutes) b (activitySeg a t d) = 0 := by
        apply onLen_eq_zero
        simp only [activitySeg]
        exact Nat.le_trans (Nat.le_trans (min_le_left b (t + d)) hbt)
          (le_max_right (b - cycleWindowMinutes) t)
      rw [h0]
      simpa using hwins b hbt
    · have hbw : windowOnDuty prev b ≤ windowOnDuty prev t :=
        windowOnDuty_mono hstops (by omega)
      have hlen : onLen (b - cycleWindowMinutes) b (activitySeg a t d) ≤ d
          := by
        refine Nat.le_trans (onLen_le_interval _ _ _) ?_
        simp only [activitySeg]
        have s1 := Nat.sub_le_sub_right (min_le_right b (t + d))
          (max (b - cycleWindowMinutes) t)
        have s2 := Nat.sub_le_sub_left
          (le_max_right (b - cycleWindowMinutes) t) (t + d)
        have s3 := Nat.le_trans s1 s2
        simpa [Nat.add_sub_cancel_left] using s3
      omega
  · rw [windowOnDuty_append, advance_cycle]
    have hbw : windowOnDuty prev (t + d) ≤ windowOnDuty prev t :=
      windowOnDuty_mono hstops (by omega)
    have hlen : onLen (t + d - cycleWindowMinutes) (t + d)
        (activitySeg a t d) ≤ d := by
      refine Nat.le_trans (onLen_le_interval _ _ _) ?_
      simp only [activitySeg]
      have s1 := Nat.sub_le_sub_right (min_le_right (t + d) (t + d))
        (max (t + d - cycleWindowMinutes) t)
      have s2 := Nat.sub_le_sub_left
        (le_max_right (t + d - cycleWindowMinutes) t) (t + d)
      have s3 := Nat.le_trans s1 s2
      simpa [Nat.add_sub_cancel_left] using s3
    omega

theorem good_rest {c0 : ℕ} {prev : List DutySegment} {t : ℕ}
    {c : ClockState} (loc : String) (hg : Good c0 prev t c) :
    Good c0 (prev ++ [restSegment loc t (restDuration c)])
      (t + restDuration c) (restState c) := by
  obtain ⟨hch, hinv, hrep, hcaps, hwins, hwt⟩ := hg
  have hstops : ∀ s ∈ prev, s.stop ≤ t := fun s hs => (hch.bounds s hs).2.2
  have hcu := hinv.2.2.2
  refine ⟨?_, restState_Inv hinv, ?_, ?_, ?_, ?_⟩
  · exact hch.append (Chained.cons (by simp [restSegment])
      (by simp [restSegment]) (Chained.nil _))
  · rw [replayList_append, hrep]
    show replayList c [restSegment loc t (restDuration c)] = restState c
    simp [replayList, replayStep_restSeg]
  · rw [capsOk_append, hcaps, hrep]
    simp [capsOk, checkSeg, restSegment]
  · intro b hb
    rw [windowOnDuty_append, onLen_off]
    by_cases hbt : b ≤ t
    · simpa using hwins b hbt
    · have hbw : windowOnDuty prev b ≤ windowOnDuty prev t :=
        windowOnDuty_mono hstops (by omega)
      omega
  · rw [windowOnDuty_append, onLen_off]
    by_cases h3 : capDrivingSinceBreak ≤ c.drivingSinceBreak
    · have hrs : (restState c).cycleUsed = c.cycleUsed := by
        unfold restState; rw [if_pos h3]
      have hmono := windowOnDuty_mono hstops
        (Nat.le_add_right t (restDuration c))
      omega
    · by_cases h2 : capDrivingSinceRest ≤ c.drivingSinceRest ∨
          capOnDutyWindow ≤ c.onDutyWindow
      · have hrs : (restState c).cycleUsed = c.cycleUsed := by
          unfold restState; rw [if_neg h3, if_pos h2]
        have hmono := windowOnDuty_mono hstops
          (Nat.le_add_right t (restDuration c))
        omega
      · have hrd : restDuration c = cycleWindowMinutes := by
          unfold restDuration; rw [if_neg h3, if_neg h2]
        have hrs : (restState c).cycleUsed = 0 := by
          unfold restState; rw [if_neg h3, if_neg h2]
        rw [hrd, hrs]
        have hz : windowOnDuty prev (t + cycleWindowMinutes) = 0 := by
          unfold windowOnDuty
          apply List.sum_eq_zero
          intro x hx
          rcases List.mem_map.mp hx with ⟨s, hs, rfl⟩
          apply onLen_eq_zero
          have h5 : min (t + cycleWindowMinutes) s.stop ≤ t :=
            Nat.le_trans (min_le_right _ _) (hstops s hs)
          have h6 : t ≤ max (t + cycleWindowMinutes - cycleWindowMinutes)
              s.start := by
            rw [Nat.add_sub_cancel]
            exact le_max_left _ _
          exact Nat.le_trans h5 h6
        omega

/-
The simulation preserves the invariant end to end.
-/

theorem runActivity_good (c0 : ℕ) (a : Activity) :
    ∀ (fuel rem : ℕ) (c : ClockState) (t : ℕ) (prev out : List DutySegment)
      (cFin : ClockState) (tFin : ℕ),
      runActivity fuel a rem c t = some (out, cFin, tFin) →
      Good c0 prev t c → Good c0 (prev ++ out) tFin cFin := by
  intro fuel
  induction fuel with
  | zero =>
    intro rem c t prev out cFin tFin h hg
    simp [runActivity] at h
  | succ n ih =>
    intro rem c t prev out cFin tFin h hg
    rw [runActivity] at h
    split at h
    · rename_i hrem
      injection h with h1
      injection h1 with h1 h2
      injection h2 with h2 h3
      subst h1; subst h2; subst h3
      simpa using hg
    · split at h
      · rename_i hrem hfit
        injection h with h1
        injection h1 with h1 h2
        injection h2 with h2 h3
        subst h1; subst h2; subst h3
        exact good_emit hfit hg
      · rename_i hrem hfit
        rcases Option.map_eq_some'.mp h with ⟨⟨out2, cF2, tF2⟩, hrun, heq⟩
        injection heq with h1 h2
        injection h2 with h2 h3
        subst h1; subst h2; subst h3
        have hg1 : Good c0 (prev ++ emitChunk a t (slackFor a.kind c))
            (t + slackFor a.kind c)
            (advance a.kind (slackFor a.kind c) c) := by
          by_cases hz : slackFor a.kind c = 0
          · rw [hz, advance_zero]
            simpa [emitChunk, hz] using hg
          · simpa [emitChunk, hz] using good_emit (le_refl _) hg
        have hg2 := good_rest a.location hg1
        have hg3 := ih _ _ _ _ _ _ _ hrun hg2
        have hl : prev ++ emitChunk a t (slackFor a.kind c) ++
            [restSegment a.location (t + slackFor a.kind c)
              (restDuration (advance a.kind (slackFor a.kind c) c))] ++
              out2 =
            prev ++ (emitChunk a t (slackFor a.kind c) ++
              restSegment a.location (t + slackFor a.kind c)
                (restDuration (advance a.kind (slackFor a.kind c) c)) ::
                out2) := by
          simp [List.append_assoc]
        rw [hl] at hg3
        exact hg3

theorem runAll_good (c0 : ℕ) :
    ∀ (acts : List Activity) (c : ClockState) (t : ℕ)
      (prev out : List DutySegment) (cFin : ClockState) (tFin : ℕ),
      runAll acts c t = some (out, cFin, tFin) →
      Good c0 prev t c → Good c0 (prev ++ out) tFin cFin := by
  intro acts
  induction acts with
  | nil =>
    intro c t prev out cFin tFin h hg
    injection h with h1
    injection h1 with h1 h2
    injection h2 with h2 h3
    subst h1; subst h2; subst h3
    simpa using hg
  | cons a rest ih =>
    intro c t prev out cFin tFin h hg
    rw [runAll] at h
    split at h
    · cases h
    · rename_i out1 c2 t2 hr
      rcases Option.map_eq_some'.mp h with ⟨⟨out2, cF, tF⟩, hrun, heq⟩
      injection heq with h1 h2
      injection h2 with h2 h3
      subst h1; subst h2; subst h3
      have hg1 := runActivity_good c0 a _ _ _ _ _ _ _ _ hr hg
      have hg2 := ih _ _ _ _ _ _ hrun hg1
      rw [List.append_assoc] at hg2
      exact hg2

/-
Day segmentation: the split pieces refine the original segments and the
day chunks concatenate back to the pieces.
-/

theorem Chained.start_pairwise {t u : ℕ} {l : List DutySegment}
    (h : Chained t l u) :
    l.Pairwise (fun p q => p.start ≤ q.start) := by
  induction h with
  | nil => exact List.Pairwise.nil
  | cons hstart hle htail ih =>
    refine List.pairwise_cons.mpr ⟨?_, ih⟩
    intro q hq
    have hb := htail.bounds q hq
    omega

theorem stop_le_totalEnd {s : DutySegment} :
    ∀ {l : List DutySegment}, s ∈ l → s.stop ≤ totalEnd l := by
  intro l
  induction l with
  | nil => intro h; cases h
  | cons q l ih =>
    intro h
    rcases List.mem_cons.mp h with rfl | h
    · exact le_max_left _ _
    · exact Nat.le_trans (ih h) (le_max_right _ _)

theorem piecesOf_single {s : DutySegment} (hss : s.start ≤ s.stop) :
    PiecesOf s [s] := by
  refine ⟨List.cons_ne_nil s [], Chained.cons rfl hss (Chained.nil _),
    ?_, ?_⟩
  · intro p hp
    rcases List.mem_singleton.mp hp with rfl
    exact ⟨rfl, rfl⟩
  · simp

theorem splitSeg_pieces (s0 : ℕ) :
    ∀ (fuel : ℕ) (s : DutySegment), s.start ≤ s.stop →
      s.stop - s.start ≤ fuel → PiecesOf s (splitSeg s0 fuel s) := by
  intro fuel
  induction fuel with
  | zero =>
    intro s hss hlen
    exact piecesOf_single hss
  | succ m ih =>
    intro s hss hlen
    rw [splitSeg]
    split
    · rename_i hcut
      have hstart_lt_cut : s.start < splitCut s0 s := by
        unfold splitCut dayIndex dayMinutes
        omega
      have hcut_lt_stop : splitCut s0 s < s.stop := by
        unfold splitCut
        unfold dayIndex dayMinutes at hcut ⊢
        omega
      have hm1_le : splitMiles s0 s ≤ s.miles := by
        have h1 : splitCut s0 s - s.start ≤ s.stop - s.start := by omega
        have h2 : s.miles * (splitCut s0 s - s.start) /
            (s.stop - s.start) ≤
            s.miles * (s.stop - s.start) / (s.stop - s.start) :=
          Nat.div_le_div_right
            (Nat.mul_le_mul (Nat.le_refl s.miles) h1)
        rw [Nat.mul_div_cancel s.miles
          (show 0 < s.stop - s.start by omega)] at h2
        exact h2
      have hp2 := ih
        (DutySegment.mk s.status (splitCut s0 s) s.stop s.location
          (s.miles - splitMiles s0 s))
        (Nat.le_of_lt hcut_lt_stop)
        (by show s.stop - splitCut s0 s ≤ m; omega)
      refine ⟨List.cons_ne_nil _ _, ?_, ?_, ?_⟩
      · exact Chained.cons rfl (Nat.le_of_lt hstart_lt_cut) hp2.2.1
      · intro p hp
        rcases List.mem_cons.mp hp with rfl | hp
        · exact ⟨rfl, rfl⟩
        · exact hp2.2.2.1 p hp
      · have hsum := hp2.2.2.2
        simp only [List.map_cons, List.sum_cons]
        simp only [] at hsum
        rw [hsum]
        omega
    · exact piecesOf_single hss

theorem splitSegTop_pieces (s0 : ℕ) {s : DutySegment}
    (h : s.start ≤ s.stop) : PiecesOf s (splitSegTop s0 s) :=
  splitSeg_pieces s0 (s.stop - s.start) s h (Nat.le_refl _)

theorem flatMap_chained (s0 : ℕ) {t u : ℕ} {segs : List DutySegment}
    (h : Chained t segs u) :
    Chained t (segs.flatMap (splitSegTop s0)) u := by
  induction h with
  | nil => exact Chained.nil _
  | cons hstart hle htail ih =>
    rename_i t' u' s rest
    rw [List.flatMap_cons]
    have hp := splitSegTop_pieces s0 (s := s) (by omega)
    refine Chained.append ?_ ih
    rw [← hstart]
    exact hp.2.1

theorem isSplitOf_flatMap (s0 : ℕ) {t u : ℕ} {segs : List DutySegment}
    (h : Chained t segs u) :
    IsSplitOf (segs.flatMap (splitSegTop s0)) segs := by
  induction h with
  | nil => exact IsSplitOf.nil
  | cons hstart hle htail ih =>
    rename_i t' u' s rest
    rw [List.flatMap_cons]
    exact IsSplitOf.cons (splitSegTop_pieces s0 (by omega)) ih

theorem mkLogs_events :
    ∀ (chunks : List (List DutySegment)) (d : ℕ),
      (mkLogs d chunks).map (fun L => L.events) = chunks := by
  intro chunks
  induction chunks with
  | nil => intro d; rfl
  | cons evs rest ih =>
    intro d
    simp [mkLogs, ih]

theorem dropWhile_day_lb (s0 d : ℕ) :
    ∀ (ps : List DutySegment),
      ps.Pairwise
        (fun p q => dayIndex s0 p.start ≤ dayIndex s0 q.start) →
      (∀ p ∈ ps, d ≤ dayIndex s0 p.start) →
      ∀ p ∈ ps.dropWhile (fun p => dayIndex s0 p.start = d),
        d + 1 ≤ dayIndex s0 p.start := by
  intro ps
  induction ps with
  | nil =>
    intro _ _ p hp
    simp [List.dropWhile] at hp
  | cons q ps ih =>
    intro hpw hlb p hp
    rw [List.dropWhile_cons] at hp
    by_cases hq : dayIndex s0 q.start = d
    · rw [if_pos (by simp [hq])] at hp
      exact ih hpw.of_cons
        (fun x hx => hlb x (List.mem_cons_of_mem q hx)) p hp
    · rw [if_neg (by simp [hq])] at hp
      rcases List.mem_cons.mp hp with rfl | hp2
      · have := hlb p (List.mem_cons_self p ps)
        omega
      · have h1 := (List.pairwise_cons.mp hpw).1 p hp2
        have h2 := hlb q (List.mem_cons_self q ps)
        omega

theorem chunkDays_flatten (s0 : ℕ) :
    ∀ (n d : ℕ) (ps : List DutySegment),
      ps.Pairwise
        (fun p q => dayIndex s0 p.start ≤ dayIndex s0 q.start) →
      (∀ p ∈ ps, d ≤ dayIndex s0 p.start ∧ dayIndex s0 p.start < d + n) →
      (chunkDays s0 n d ps).flatten = ps := by
  intro n
  induction n with
  | zero =>
    intro d ps hpw hb
    cases ps with
    | nil => rfl
    | cons p ps =>
      have := hb p (List.mem_cons_self p ps)
      omega
  | succ m ih =>
    intro d ps hpw hb
    rw [chunkDays, List.flatten_cons]
    rw [ih (d + 1) (ps.dropWhile (fun p => dayIndex s0 p.start = d))
      (List.Pairwise.sublist (List.dropWhile_sublist _) hpw) ?_]
    · exact List.takeWhile_append_dropWhile _ _
    · intro p hp
      refine ⟨dropWhile_day_lb s0 d ps hpw (fun x hx => (hb x hx).1) p hp,
        ?_⟩
      have hmem := (List.dropWhile_sublist
        (fun q : DutySegment => decide (dayIndex s0 q.start = d))).subset hp
      have := (hb p hmem).2
      omega

theorem segmentDays_roundtrip {segs : List DutySegment} {u : ℕ} (s0 : ℕ)
    (h : Chained 0 segs u) :
    IsSplitOf ((segmentDays s0 segs).map (fun L => L.events)).flatten
      segs := by
  unfold segmentDays
  rw [mkLogs_events]
  rw [chunkDays_flatten s0 (numDays s0 segs) 0
    (segs.flatMap (splitSegTop s0)) ?_ ?_]
  · exact isSplitOf_flatMap s0 h
  · have hc := flatMap_chained s0 h
    exact hc.start_pairwise.imp
      (fun hpq => Nat.div_le_div_right (Nat.add_le_add_left hpq s0))
  · intro p hp
    refine ⟨Nat.zero_le _, ?_⟩
    rcases List.mem_flatMap.mp hp with ⟨s, hs, hps⟩
    have hbs := h.bounds s hs
    have hpieces := splitSegTop_pieces s0 (s := s) (by omega)
    have hbp := hpieces.2.1.bounds p hps
    have h1 : p.start ≤ totalEnd segs :=
      Nat.le_trans (Nat.le_trans hbp.2.1 hbp.2.2) (stop_le_totalEnd hs)
    have h2 : dayIndex s0 p.start ≤ dayIndex s0 (totalEnd segs) :=
      Nat.div_le_div_right (Nat.add_le_add_left h1 s0)
    unfold numDays
    omega

theorem chained_of_chainOk (d : ℕ) :
    ∀ (l : List DutySegment), chainOk l = true →
      ∃ u, Chained (headStart d l) l u := by
  intro l
  induction l with
  | nil => intro _; exact ⟨d, Chained.nil d⟩
  | cons s rest ih =>
    intro hok
    cases rest with
    | nil =>
      simp only [chainOk, decide_eq_true_eq] at hok
      exact ⟨s.stop, Chained.cons rfl hok (Chained.nil _)⟩
    | cons s2 rest2 =>
      simp only [chainOk, Bool.and_eq_true, decide_eq_true_eq] at hok
      obtain ⟨⟨hss, hadj⟩, hok2⟩ := hok
      obtain ⟨u, hu⟩ := ih hok2
      refine ⟨u, Chained.cons rfl hss ?_⟩
      simp only [headStart] at hu
      rw [hadj]
      exact hu

theorem chained_of_contiguous {l : List DutySegment}
    (h : contiguousFromZero l = true) : ∃ u, Chained 0 l u := by
  cases l with
  | nil => exact ⟨0, Chained.nil 0⟩
  | cons s rest =>
    simp only [contiguousFromZero, Bool.and_eq_true, decide_eq_true_eq] at h
    obtain ⟨h0, hok⟩ := h
    obtain ⟨u, hu⟩ := chained_of_chainOk 0 (s :: rest) hok
    simp only [headStart] at hu
    rw [h0] at hu
    exact ⟨u, hu⟩

theorem schedule_good (acts : List Activity) (c0 : ℕ)
    (h : c0 ≤ capCycle) :
    ∃ t c, Good c0 (schedule acts c0) t c := by
  have h1 := runAll_isSome acts (initialClock c0) 0
  rcases Option.isSome_iff_exists.mp h1 with ⟨⟨out, cF, tF⟩, hr⟩
  have hg0 : Good c0 [] 0 (initialClock c0) := by
    refine ⟨Chained.nil 0,
      ⟨Nat.zero_le _, Nat.zero_le _, Nat.zero_le _, h⟩, rfl, rfl, ?_, ?_⟩
    · intro b hb
      simp [windowOnDuty]
    · simp [windowOnDuty]
  have hg := runAll_good c0 acts _ _ [] _ _ _ hr hg0
  refine ⟨tF, cF, ?_⟩
  unfold schedule
  rw [hr]
  simpa using hg

/-
Frontend helper lemmas.
-/

theorem hasHttpScheme_ne_empty {s : List Char}
    (h : hasHttpScheme s = true) : s.isEmpty = false := by
  cases s with
  | nil => exact absurd h (by decide)
  | cons c cs => rfl

theorem isPrefixOf_append {p s t : List Char}
    (h : p.isPrefixOf s = true) : p.isPrefixOf (s ++ t) = true := by
  rw [List.isPrefixOf_iff_prefix] at h ⊢
  exact h.trans (List.prefix_append s t)

theorem hasHttpScheme_append {base s : List Char}
    (h : hasHttpScheme base = true) :
    hasHttpScheme (base ++ s) = true := by
  unfold hasHttpScheme at h ⊢
  rw [Bool.or_eq_true] at h ⊢
  rcases h with h | h
  · exact Or.inl (isPrefixOf_append h)
  · exact Or.inr (isPrefixOf_append h)

theorem append_isEmpty_false {base s : List Char}
    (h : base.isEmpty = false) : (base ++ s).isEmpty = false := by
  cases base with
  | nil => simp [List.isEmpty] at h
  | cons c cs => rfl

/-
The claims.
-/

/-- C1: for every scheduled trip (any activity list, any initial cycle value
within the 70-hour cap), no counter exceeds its cap at the instant a Drive
or OnDutyFixed segment extends it - checked by replaying the four counters
over the emitted timeline - and the cumulative ON+D time inside every
trailing 8-day window of the timeline stays within the 70-hour cycle cap. -/
theorem c1_clock_caps_and_cycle_window (acts : List Activity) (c0 : ℕ)
    (h : c0 ≤ capCycle) :
    capsOk (initialClock c0) (schedule acts c0) = true ∧
      ∀ b, windowOnDuty (schedule acts c0) b ≤ capCycle := by
  obtain ⟨t, c, hg⟩ := schedule_good acts c0 h
  obtain ⟨hch, hinv, hrep, hcaps, hwins, hwt⟩ := hg
  refine ⟨hcaps, ?_⟩
  intro b
  by_cases hb : b ≤ t
  · exact hwins b hb
  · have hstops : ∀ s ∈ schedule acts c0, s.stop ≤ t :=
      fun s hs => (hch.bounds s hs).2.2
    have hmono := windowOnDuty_mono hstops (show t ≤ b by omega)
    have hcu := hinv.2.2.2
    omega

theorem c1_clock_caps_and_cycle_window_witness :
    0 ≤ capCycle ∧
      capsOk (initialClock 0)
          (schedule [Activity.mk ActivityKind.drive 120 100 "A"] 0) =
        true ∧
      windowOnDuty (schedule [Activity.mk ActivityKind.drive 120 100 "A"] 0)
          720 ≤ capCycle :=
  ⟨Nat.zero_le _,
    (c1_clock_caps_and_cycle_window
      [Activity.mk ActivityKind.drive 120 100 "A"] 0 (Nat.zero_le _)).1,
    (c1_clock_caps_and_cycle_window
      [Activity.mk ActivityKind.drive 120 100 "A"] 0 (Nat.zero_le _)).2 720⟩

/-- C2: every timeline emitted by the HOS scheduler passes the contiguity
check - its first segment starts at offset 0 and every adjacent pair
satisfies stop = next start, so there are no gaps and no overlaps. -/
theorem c2_segments_contiguous (acts : List Activity) (c0 : ℕ) :
    contiguousFromZero (schedule acts c0) = true := by
  obtain ⟨t, hch⟩ := schedule_chained acts c0
  exact hch.contiguousFromZero

/-- C3: for every contiguous timeline, concatenating in day order the
clipped segment lists of all daily logs produced by the segmenter yields a
pure refinement of the original segment sequence: each original segment
corresponds to a consecutive non-empty run of pieces with the same status
and location, contiguous exactly from its start to its stop, with the miles
adding up exactly - midnight splits only add boundaries and never lose or
alter time. -/
theorem c3_day_segmentation_roundtrip (segs : List DutySegment) (s0 : ℕ)
    (h : contiguousFromZero segs = true) :
    IsSplitOf ((segmentDays s0 segs).map (fun L => L.events)).flatten
      segs := by
  obtain ⟨u, hch⟩ := chained_of_contiguous h
  exact segmentDays_roundtrip s0 hch

theorem c3_day_segmentation_roundtrip_witness :
    contiguousFromZero [DutySegment.mk DutyStatus.driving 0 2000 "A" 10] =
        true ∧
      IsSplitOf
        (((segmentDays 0
              [DutySegment.mk DutyStatus.driving 0 2000 "A" 10]).map
            (fun L => L.events)).flatten)
        [DutySegment.mk DutyStatus.driving 0 2000 "A" 10] :=
  ⟨by decide,
    c3_day_segmentation_roundtrip
      [DutySegment.mk DutyStatus.driving 0 2000 "A" 10] 0 (by decide)⟩

/-- C4: the scheduler is deterministic - it is a pure function of the
activity list and the initial cycle value, so two runs on identical inputs
produce identical duty-segment output. -/
theorem c4_scheduler_deterministic (acts1 acts2 : List Activity)
    (c1 c2 : ℕ) (ha : acts1 = acts2) (hc : c1 = c2) :
    schedule acts1 c1 = schedule acts2 c2 := by
  rw [ha, hc]

theorem c4_scheduler_deterministic_witness :
    schedule [Activity.mk ActivityKind.drive 120 100 "A"] 0 =
      schedule [Activity.mk ActivityKind.drive 120 100 "A"] 0 :=
  c4_scheduler_deterministic [Activity.mk ActivityKind.drive 120 100 "A"]
    [Activity.mk ActivityKind.drive 120 100 "A"] 0 0 rfl rfl

/-- C5: the core fails with InvalidLegError exactly when a supplied leg has
non-positive (zero) distance or duration; it never fails with
UnschedulableTripError; and every non-error run returns a complete
contiguous timeline - there is no partial result. -/
theorem c5_error_handling_totality (leg1 leg2 : Leg) (c0 : ℕ) :
    (calcTrip leg1 leg2 c0 = Except.error TripError.invalidLeg ↔
      (leg1.distance = 0 ∨ leg1.duration = 0 ∨ leg2.distance = 0 ∨
        leg2.duration = 0)) ∧
    calcTrip leg1 leg2 c0 ≠ Except.error TripError.unschedulable ∧
    (∀ segs, calcTrip leg1 leg2 c0 = Except.ok segs →
      contiguousFromZero segs = true) := by
  by_cases hbad : leg1.distance = 0 ∨ leg1.duration = 0 ∨
      leg2.distance = 0 ∨ leg2.duration = 0
  · have hcalc : calcTrip leg1 leg2 c0 =
        Except.error TripError.invalidLeg := by
      unfold calcTrip plan
      rw [if_pos hbad]
      rfl
    refine ⟨iff_of_true hcalc hbad, ?_, ?_⟩
    · rw [hcalc]
      intro hcon
      injection hcon with h1
      exact TripError.noConfusion h1
    · intro segs hs
      rw [hcalc] at hs
      exact Except.noConfusion hs
  · unfold calcTrip plan
    rw [if_neg hbad]
    simp only [Except.map]
    refine ⟨iff_of_false (fun hcon => Except.noConfusion hcon) hbad,
      fun hcon => Except.noConfusion hcon, ?_⟩
    intro segs hs
    injection hs with h1
    rw [← h1]
    obtain ⟨u, hch⟩ := schedule_chained _ c0
    exact hch.contiguousFromZero

theorem c5_error_handling_totality_witness :
    calcTrip (Leg.mk "A" "B" 0 10) (Leg.mk "B" "C" 5 5) 0 =
        Except.error TripError.invalidLeg ∧
      contiguousFromZero
        [DutySegment.mk DutyStatus.driving 0 60 "B" 10,
          DutySegment.mk DutyStatus.onDuty 60 120 "B" 0,
          DutySegment.mk DutyStatus.driving 120 180 "C" 10,
          DutySegment.mk DutyStatus.onDuty 180 240 "C" 0] = true :=
  ⟨(c5_error_handling_totality (Leg.mk "A" "B" 0 10) (Leg.mk "B" "C" 5 5)
      0).1.mpr (Or.inl rfl),
    (c5_error_handling_totality (Leg.mk "A" "B" 10 60)
        (Leg.mk "B" "C" 10 60) 0).2.2
      [DutySegment.mk DutyStatus.driving 0 60 "B" 10,
        DutySegment.mk DutyStatus.onDuty 60 120 "B" 0,
        DutySegment.mk DutyStatus.driving 120 180 "C" 10,
        DutySegment.mk DutyStatus.onDuty 180 240 "C" 0] (by rfl)⟩

/-- C6 counterexample: at a total trip time of 0 hours the frontend day
count Math.ceil(0 / 24) is 0, not at least 1, and the formatter reports
`0 days`. -/
theorem c6_counterexample :
    tripDaysCount 0 = 0 ∧ formatTripDays (some 0) = "0 days" := by
  have h : tripDaysCount 0 = 0 := by
    unfold tripDaysCount
    norm_num
  refine ⟨h, ?_⟩
  simp only [formatTripDays]
  rw [h]
  rw [if_neg (by decide : ¬ (0 : ℤ) = 1)]
  decide

/-- C6 amended: the day count ceil(hours / 24) computed by formatTripDays
is at least 1 for every positive total trip time; at exactly 0 hours it is
0, so the claim holds only for positive inputs. -/
theorem c6_trip_days_at_least_one (h : ℚ) (hpos : 0 < h) :
    1 ≤ tripDaysCount h := by
  unfold tripDaysCount
  have h1 : (0 : ℚ) < h / 24 := by positivity
  have h2 := Int.ceil_pos.mpr h1
  omega

theorem c6_trip_days_at_least_one_witness : 1 ≤ tripDaysCount 30 :=
  c6_trip_days_at_least_one 30 (by norm_num)

/-- C7: the trip form's cycle field validator accepts a value exactly when
it lies between 0 and 70 inclusive, rejecting negative values and values
above 70 with a validation error. -/
theorem c7_cycle_validation (v : ℚ) :
    cycleFieldError v = none ↔ 0 ≤ v ∧ v ≤ 70 := by
  unfold cycleFieldError
  split_ifs with h1 h2
  · refine iff_of_false (by simp) ?_
    intro hcon
    linarith [hcon.1]
  · refine iff_of_false (by simp) ?_
    intro hcon
    linarith [hcon.2]
  · exact iff_of_true rfl ⟨by linarith, by linarith⟩

theorem c7_cycle_validation_witness : cycleFieldError 35 = none :=
  (c7_cycle_validation 35).mpr (by norm_num)

/-- C8 counterexample: at 0.996 hours the rounded minutes component is 60
and formatDuration renders the string `60m`. -/
theorem c8_counterexample :
    minutesPart (996 / 1000) = 60 ∧
      formatDuration (some (996 / 1000)) = "60m" := by
  have h0 : (⌊(996 / 1000 : ℚ)⌋ : ℤ) = 0 := by
    rw [Int.floor_eq_iff]
    norm_num
  have h1 : hoursPart (996 / 1000 : ℚ) = 0 := h0
  have h2 : minutesPart (996 / 1000 : ℚ) = 60 := by
    unfold minutesPart jsRound
    rw [h0]
    rw [Int.floor_eq_iff]
    norm_num
  refine ⟨h2, ?_⟩
  simp only [formatDuration]
  rw [h1, h2]
  rw [if_pos rfl]
  decide

/-- C8 amended: the rounded minutes component of formatDuration is at most
60 for every non-negative hours value; 60 itself is attained (for
fractional parts of at least 119/120 of an hour), so strictly-less-than-60
fails. -/
theorem c8_minutes_at_most_sixty (q : ℚ) (hq : 0 ≤ q) :
    minutesPart q ≤ 60 := by
  unfold minutesPart jsRound
  have h1 : q - ⌊q⌋ < 1 := by
    have := Int.sub_one_lt_floor q
    linarith
  have h0 : (0 : ℚ) ≤ q - ⌊q⌋ := by
    have := Int.floor_le q
    linarith
  have h2 : (q - ⌊q⌋) * 60 + 1 / 2 < 61 := by nlinarith
  have h3 : ⌊(q - (⌊q⌋ : ℚ)) * 60 + 1 / 2⌋ < 61 := by
    rw [Int.floor_lt]
    exact_mod_cast h2
  omega

theorem c8_minutes_at_most_sixty_witness : minutesPart 2 ≤ 60 :=
  c8_minutes_at_most_sixty 2 (by norm_num)

/-- C9 counterexample: with the configured API base URL
`http://api.example.com/api` - which starts with `http://` - the first
occurrence of `/api` sits inside the authority, so the media base URL loses
its scheme and applying getFullMapUrl twice differs from applying it
once. -/
theorem c9_counterexample :
    hasHttpScheme ("http://api.example.com/api".data) = true ∧
      getFullMapUrl ("http://api.example.com/api".data)
          (getFullMapUrl ("http://api.example.com/api".data)
            (some ("/media/m.png".data))) ≠
        getFullMapUrl ("http://api.example.com/api".data)
          (some ("/media/m.png".data)) := by
  constructor
  · decide
  · decide

/-- C9 amended: getFullMapUrl maps null to null and returns http(s) URLs
unchanged; and under the strengthened precondition that the derived media
base URL (the API base URL with its first `/api` removed) still starts with
`http://` or `https://`, applying it twice equals applying it once.  The
original precondition - on the API base URL itself - is not sufficient. -/
theorem c9_null_preserving_idempotent (apiUrl : List Char)
    (hbase : hasHttpScheme (getMediaBaseUrl apiUrl) = true) :
    getFullMapUrl apiUrl none = none ∧
      (∀ s, hasHttpScheme s = true →
        getFullMapUrl apiUrl (some s) = some s) ∧
      (∀ u, getFullMapUrl apiUrl (getFullMapUrl apiUrl u) =
        getFullMapUrl apiUrl u) := by
  refine ⟨rfl, ?_, ?_⟩
  · intro s hs
    simp [getFullMapUrl, hasHttpScheme_ne_empty hs, hs]
  · intro u
    cases u with
    | none => rfl
    | some s =>
      by_cases hemp : s.isEmpty = true
      · simp [getFullMapUrl, hemp]
      · by_cases hsch : hasHttpScheme s = true
        · simp [getFullMapUrl, hemp, hsch]
        · have hstep : getFullMapUrl apiUrl (some s) =
              some (getMediaBaseUrl apiUrl ++ s) := by
            simp [getFullMapUrl, hemp, hsch]
          rw [hstep]
          simp [getFullMapUrl,
            append_isEmpty_false (hasHttpScheme_ne_empty hbase),
            hasHttpScheme_append hbase]

theorem c9_null_preserving_idempotent_witness :
    hasHttpScheme (getMediaBaseUrl ("http://localhost:8000/api".data)) =
        true ∧
      getFullMapUrl ("http://localhost:8000/api".data)
          (getFullMapUrl ("http://localhost:8000/api".data)
            (some ("/m.png".data))) =
        getFullMapUrl ("http://localhost:8000/api".data)
          (some ("/m.png".data)) :=
  ⟨by decide,
    (c9_null_preserving_idempotent ("http://localhost:8000/api".data)
        (by decide)).2.2 (some ("/m.png".data))⟩

/-- C10 counterexample: on a status response with status completed, map
status completed but is_map_ready false, the poller's stop predicate holds
while the hook's does not, so the two stop conditions are not equivalent
over all responses. -/
theorem c10_counterexample :
    pollerShouldStop
        (TripStatusFields.mk TripStatus.completed MapStatus.completed
          false) = true ∧
      hookShouldStop
        (TripStatusFields.mk TripStatus.completed MapStatus.completed
          false) = false := by
  constructor
  · decide
  · decide

/-- C10 amended: the poller's stop predicate and the hook's stop predicate
coincide exactly on those status responses whose is_map_ready flag equals
the map-status-completed test; on arbitrary responses - with the two fields
independent - they differ. -/
theorem c10_stop_predicates_agree (r : TripStatusFields)
    (h : r.isMapReady = decide (r.mapStatus = MapStatus.completed)) :
    pollerShouldStop r = hookShouldStop r := by
  unfold pollerShouldStop hookShouldStop
  rw [h]

theorem c10_stop_predicates_agree_witness :
    pollerShouldStop
        (TripStatusFields.mk TripStatus.completed MapStatus.completed
          true) =
      hookShouldStop
        (TripStatusFields.mk TripStatus.completed MapStatus.completed
          true) :=
  c10_stop_predicates_agree
    (TripStatusFields.mk TripStatus.completed MapStatus.completed true)
    (by decide)

end EldLogs
